import Mathlib

/-!
Verification of the `kmers` bit-packed k-mer codec.

This file gives a shallow embedding, in Lean, of the Go package `kmers`
(files `kmer.go` and `kmerCode.go`): 2-bit-per-base packing of DNA k-mers
(k ≤ 32) into a 64-bit machine word, together with the bit-algebra over
packed codes (reverse, complement, reverse-complement, canonical form,
incremental re-encoding of sliding windows, prefix/suffix extraction and
longest-common-prefix computation).

Modelling conventions:
* Go `uint64` values are `Nat`s; wherever Go's 64-bit arithmetic can wrap
  (shifts, subtraction) we apply the explicit wrapping helpers `wrap64`,
  `goShl` and `goSub1`, which reproduce Go's defined semantics (a shift by
  64 or more yields 0; subtraction is modulo 2^64).
* Go byte slices are `List Nat` (each entry a byte value).
* Functions returning Go's `(value, error)` pairs become `Nat × Option Err`;
  functions that `panic` on bad arguments become `Except Err _`.
* The five-stage masked shift-and-or cascade that the source repeats
  verbatim inside `Reverse`, `MustReverse`, `RevComp`, `MustRevComp`,
  `Canonical` and `MustCanonical` is factored into the single definition
  `rev64`, applied by each of those functions exactly as in the source.
-/

namespace Kmers

/-- Error kinds, one per `errors.New` variable of the source
(`ErrIllegalBase`, `ErrKOverflow`, `ErrPositionOverflow`,
`ErrLengthOverflow`, `ErrCodeOverflow`, `ErrKMismatch`,
`ErrNotConsecutiveKmers`). -/
inductive Err where
  | IllegalBase
  | KOverflow
  | PositionOverflow
  | LengthOverflow
  | CodeOverflow
  | KMismatch
  | NotConsecutiveKmers
deriving DecidableEq, Repr

/-- Truncation to 64 bits: the implicit wrap-around of every Go `uint64`
operation. -/
def wrap64 (x : Nat) : Nat := x % 2 ^ 64

/-- Go `x << s` on `uint64`: shifts by 64 or more produce 0, smaller shifts
truncate to 64 bits. -/
def goShl (x s : Nat) : Nat := if s < 64 then wrap64 (x <<< s) else 0

/-- Go `x - 1` on `uint64` (wraps around at 0), for `x < 2^64`. -/
def goSub1 (x : Nat) : Nat := wrap64 (x + 2 ^ 64 - 1)

/-- The 256-entry `base2bit` lookup table of the source, mapping a byte to
its 2-bit code (`A=0, C=1, G=2, T=3`, IUPAC degenerate bases to the code of
the first base of their ambiguity set) or to the sentinel `4` for bytes
with no mapping. -/
def base2bitTable : List Nat :=
  [4, 4, 4, 4, 4, 4, 4, 4, 4, 4, 4, 4, 4, 4, 4, 4,
   4, 4, 4, 4, 4, 4, 4, 4, 4, 4, 4, 4, 4, 4, 4, 4,
   4, 4, 4, 4, 4, 4, 4, 4, 4, 4, 4, 4, 4, 4, 4, 4,
   4, 4, 4, 4, 4, 4, 4, 4, 4, 4, 4, 4, 4, 4, 4, 4,
   4, 0, 1, 1, 0, 4, 4, 2, 0, 4, 4, 2, 4, 0, 0, 4,
   4, 4, 0, 1, 3, 3, 0, 0, 4, 1, 4, 4, 4, 4, 4, 4,
   4, 0, 1, 1, 0, 4, 4, 2, 0, 4, 4, 2, 4, 0, 0, 4,
   4, 4, 0, 1, 3, 3, 0, 0, 4, 1, 4, 4, 4, 4, 4, 4,
   4, 4, 4, 4, 4, 4, 4, 4, 4, 4, 4, 4, 4, 4, 4, 4,
   4, 4, 4, 4, 4, 4, 4, 4, 4, 4, 4, 4, 4, 4, 4, 4,
   4, 4, 4, 4, 4, 4, 4, 4, 4, 4, 4, 4, 4, 4, 4, 4,
   4, 4, 4, 4, 4, 4, 4, 4, 4, 4, 4, 4, 4, 4, 4, 4,
   4, 4, 4, 4, 4, 4, 4, 4, 4, 4, 4, 4, 4, 4, 4, 4,
   4, 4, 4, 4, 4, 4, 4, 4, 4, 4, 4, 4, 4, 4, 4, 4,
   4, 4, 4, 4, 4, 4, 4, 4, 4, 4, 4, 4, 4, 4, 4, 4,
   4, 4, 4, 4, 4, 4, 4, 4, 4, 4, 4, 4, 4, 4, 4, 4]

/-- `base2bit[b]` of the source (indices beyond 255 cannot arise for Go
bytes; they fall back to the same sentinel `4`). -/
def base2bit (b : Nat) : Nat := base2bitTable.getD b 4

/-- The `bit2base` array of the source: `{'A', 'C', 'G', 'T'}` as byte
values (it is only ever indexed with `code & 3 < 4`). -/
def bit2base (v : Nat) : Nat := [65, 67, 71, 84].getD v 0

/-- The `MaxCode` table as the source's `init` actually fills it:
`MaxCode[i] = (1 << uint(1<<i)) - 1`, i.e. `2^(2^i) - 1` with Go's
wrapping shift and subtraction (so `2^64 - 1` for `i ≥ 6`).  Note the
source's own comment on that line reads `(1<<(i*2)) - 1`.  Entries outside
1..32 keep the zero value of the freshly made slice. -/
def MaxCode (k : Nat) : Nat :=
  if 1 ≤ k ∧ k ≤ 32 then goSub1 (goShl 1 (1 <<< k)) else 0

/-- The accumulator loop of `Encode`: `code <<= 2; v = base2bit[b];
if v == 4 return code, ErrIllegalBase; code |= v`. -/
def encodeLoop : List Nat → Nat → Nat × Option Err
  | [], code => (code, none)
  | b :: rest, code =>
      let code' := wrap64 (code <<< 2)
      let v := base2bit b
      if v = 4 then (code', some .IllegalBase)
      else encodeLoop rest (code' ||| v)

/-- `Encode` of the source: rejects empty input and input longer than 32
with `ErrKOverflow`, otherwise packs the bytes two bits at a time,
most-significant base first. -/
def Encode (kmer : List Nat) : Nat × Option Err :=
  if kmer.length = 0 ∨ 32 < kmer.length then (0, some .KOverflow)
  else encodeLoop kmer 0

/-- `MustEncodeFromFormerKmer`: re-encode a window slid right by one base,
keeping the low `2(k-1)` bits of the former code, shifting them up and
appending the 2-bit value of the new last base.  On an unmapped base it
returns the former code unchanged together with `ErrIllegalBase`. -/
def MustEncodeFromFormerKmer (kmer leftKmer : List Nat) (leftCode : Nat) :
    Nat × Option Err :=
  let v := base2bit (kmer.getLastD 0)
  if v = 4 then (leftCode, some .IllegalBase)
  else (wrap64 ((leftCode &&& goSub1 (goShl 1 ((kmer.length - 1) <<< 1))) <<< 2) ||| v,
        none)

/-- `EncodeFromFormerKmer`: the checked variant, validating length equality
and consecutiveness (`kmer[0:k-1] == leftKmer[1:]`) before delegating. -/
def EncodeFromFormerKmer (kmer leftKmer : List Nat) (leftCode : Nat) :
    Nat × Option Err :=
  if kmer.length = 0 then (0, some .KOverflow)
  else if kmer.length ≠ leftKmer.length then (0, some .KMismatch)
  else if kmer.take (kmer.length - 1) ≠ leftKmer.drop 1 then
    (0, some .NotConsecutiveKmers)
  else MustEncodeFromFormerKmer kmer leftKmer leftCode

/-- `MustEncodeFromLatterKmer`: re-encode a window slid left by one base,
placing the 2-bit value of the new first base at the top and dropping the
last base of the latter code.  On an unmapped base it returns the latter
code unchanged together with `ErrIllegalBase`. -/
def MustEncodeFromLatterKmer (kmer rightKmer : List Nat) (rightCode : Nat) :
    Nat × Option Err :=
  let v := base2bit (kmer.headD 0)
  if v = 4 then (rightCode, some .IllegalBase)
  else (goShl v ((kmer.length - 1) <<< 1) ||| rightCode >>> 2, none)

/-- `EncodeFromLatterKmer`: the checked variant, validating length equality
and consecutiveness (`rightKmer[0:k-1] == kmer[1:]`) before delegating. -/
def EncodeFromLatterKmer (kmer rightKmer : List Nat) (rightCode : Nat) :
    Nat × Option Err :=
  if kmer.length = 0 then (0, some .KOverflow)
  else if kmer.length ≠ rightKmer.length then (0, some .KMismatch)
  else if rightKmer.take (kmer.length - 1) ≠ kmer.drop 1 then
    (0, some .NotConsecutiveKmers)
  else MustEncodeFromLatterKmer kmer rightKmer rightCode

/-- One stage of the biostars bit-swap cascade:
`c = (c >> s & m) | (c & m) << s`.  For every mask used by the source the
shifted operand stays below `2^64`, so Go's truncation (made explicit here
by `wrap64`) never discards bits. -/
def revStep (m s c : Nat) : Nat := ((c >>> s) &&& m) ||| wrap64 ((c &&& m) <<< s)

/-- The full five-stage cascade the source repeats inside `Reverse`,
`MustReverse`, `RevComp`, `MustRevComp`, `Canonical` and `MustCanonical`:
it reverses the order of the 32 two-bit groups of a 64-bit word. -/
def rev64 (c : Nat) : Nat :=
  revStep 0x00000000FFFFFFFF 32
    (revStep 0x0000FFFF0000FFFF 16
      (revStep 0x00FF00FF00FF00FF 8
        (revStep 0x0F0F0F0F0F0F0F0F 4
          (revStep 0x3333333333333333 2 c))))

/-- `MustReverse`: cascade, then drop the `2(32-k)` bits of padding. -/
def MustReverse (code k : Nat) : Nat := rev64 code >>> ((32 - k) <<< 1)

/-- `Reverse`: panics (`ErrKOverflow`) unless `1 ≤ k ≤ 32`. -/
def Reverse (code k : Nat) : Except Err Nat :=
  if k = 0 ∨ 32 < k then .error .KOverflow else .ok (MustReverse code k)

/-- `MustComplement`: `code ^ ((1 << (k*2)) - 1)` with Go's wrapping shift
and subtraction (for `k = 32` the mask is `2^64 - 1`). -/
def MustComplement (code k : Nat) : Nat := code ^^^ goSub1 (goShl 1 (k <<< 1))

/-- `Complement`: panics (`ErrKOverflow`) unless `1 ≤ k ≤ 32`. -/
def Complement (code k : Nat) : Except Err Nat :=
  if k = 0 ∨ 32 < k then .error .KOverflow else .ok (MustComplement code k)

/-- `MustRevComp`: `c = ^code` (64-bit bitwise negation), then the cascade,
then the padding shift — the fused reverse-complement. -/
def MustRevComp (code k : Nat) : Nat :=
  rev64 (code ^^^ (2 ^ 64 - 1)) >>> ((32 - k) <<< 1)

/-- `RevComp`: panics (`ErrKOverflow`) unless `1 ≤ k ≤ 32`. -/
def RevComp (code k : Nat) : Except Err Nat :=
  if k = 0 ∨ 32 < k then .error .KOverflow else .ok (MustRevComp code k)

/-- `MustCanonical`: the smaller (as a packed integer) of the code and its
reverse complement, the latter computed by the same inline cascade. -/
def MustCanonical (code k : Nat) : Nat :=
  let rc := MustRevComp code k
  if rc < code then rc else code

/-- `Canonical`: panics (`ErrKOverflow`) unless `1 ≤ k ≤ 32`. -/
def Canonical (code k : Nat) : Except Err Nat :=
  if k = 0 ∨ 32 < k then .error .KOverflow else .ok (MustCanonical code k)

/-- `MustDecode`: the source loop writes base `bit2base[code&3]` into
position `k-1-i` and shifts `code` right, for `i = 0 .. k-1`; equivalently,
the decoded list is the decode of the high `k-1` groups followed by the
base of the lowest group. -/
def MustDecode (code k : Nat) : List Nat :=
  match k with
  | 0 => []
  | k' + 1 => MustDecode (code >>> 2) k' ++ [bit2base (code &&& 3)]

/-- `Decode`: panics with `ErrKOverflow` unless `1 ≤ k ≤ 32` and with
`ErrCodeOverflow` when `code > MaxCode[k]` (the table as actually built),
then decodes. -/
def Decode (code k : Nat) : Except Err (List Nat) :=
  if k = 0 ∨ 32 < k then .error .KOverflow
  else if MaxCode k < code then .error .CodeOverflow
  else .ok (MustDecode code k)

/-- `MustPrefix`: the first `n` bases, `code >> ((k-n)*2)`. -/
def MustPrefix (code k n : Nat) : Nat := code >>> ((k - n) <<< 1)

/-- `Prefix`: panics (`ErrLengthOverflow`) unless `1 ≤ n ≤ k`. -/
def Prefix (code k n : Nat) : Except Err Nat :=
  if n < 1 ∨ k < n then .error .LengthOverflow else .ok (MustPrefix code k n)

/-- `MustSuffix`: the suffix from position `i`,
`code & (1 << ((k-i)*2) - 1)` with Go's wrapping shift and subtraction. -/
def MustSuffix (code k i : Nat) : Nat :=
  code &&& goSub1 (goShl 1 ((k - i) <<< 1))

/-- `Suffix`: panics (`ErrPositionOverflow`) unless `0 ≤ i < k`. -/
def Suffix (code k i : Nat) : Except Err Nat :=
  if k ≤ i then .error .PositionOverflow else .ok (MustSuffix code k i)

/-- Go `bits.Len64`: the number of bits needed to represent `x`. -/
def len64 (x : Nat) : Nat := if x = 0 then 0 else Nat.log2 x + 1

/-- Go `bits.LeadingZeros64`. -/
def leadingZeros64 (x : Nat) : Nat := 64 - len64 x

/-- `MustLongestPrefix`: right-align the longer code onto the shared
`min(k1,k2)` tail, XOR, and turn the leading-zero count of the XOR into a
number of agreeing 2-bit groups: `LeadingZeros64(c1^c2)>>1 - (32 - min)`.
The Go result is an `int`; for valid inputs it is non-negative, so natural
subtraction agrees with it. -/
def MustLongestPrefix (code1 code2 k1 k2 : Nat) : Nat :=
  if k2 ≤ k1 then
    (leadingZeros64 ((code1 >>> ((k1 - k2) <<< 1)) ^^^ code2) >>> 1) - (32 - k2)
  else
    (leadingZeros64 (code1 ^^^ (code2 >>> ((k2 - k1) <<< 1))) >>> 1) - (32 - k1)

/-- `LongestPrefix`: panics (`ErrKOverflow`) unless both lengths are in
1..32. -/
def LongestPrefix (code1 code2 k1 k2 : Nat) : Except Err Nat :=
  if k1 = 0 ∨ 32 < k1 ∨ k2 = 0 ∨ 32 < k2 then .error .KOverflow
  else .ok (MustLongestPrefix code1 code2 k1 k2)

/-- One step of the packing fold: shift the accumulator up one base and add
the 2-bit value of the next byte (the arithmetic reading of
`code<<2 | base2bit[b]`). -/
def encStep (acc b : Nat) : Nat := 4 * acc + base2bit b

/-- Reference value of a successful encode: the fold of `encStep` over the
bytes, most-significant base first (what `Encode` computes when no byte is
rejected). -/
def codeOf (l : List Nat) : Nat := l.foldl encStep 0

/-- Length of the longest common prefix of two byte lists (the notion the
spec states `LongestPrefix` computes on the decoded sequences). -/
def commonPrefixLen : List Nat → List Nat → Nat
  | a :: as, b :: bs => if a = b then commonPrefixLen as bs + 1 else 0
  | _, _ => 0

/-! ### Generic bitwise lemmas -/

theorem shiftLeft_one_eq (n : Nat) : n <<< 1 = 2 * n := by
  rw [Nat.shiftLeft_eq]
  omega

theorem xor_shiftRight (a b s : Nat) : (a ^^^ b) >>> s = a >>> s ^^^ b >>> s := by
  apply Nat.eq_of_testBit_eq
  intro i
  simp [Nat.testBit_shiftRight, Nat.testBit_xor]

theorem xor_shiftLeft (a b s : Nat) : (a ^^^ b) <<< s = a <<< s ^^^ b <<< s := by
  apply Nat.eq_of_testBit_eq
  intro i
  simp only [Nat.testBit_shiftLeft, Nat.testBit_xor]
  cases h : decide (i ≥ s) <;> simp

theorem xor_mod_two_pow (a b n : Nat) :
    (a ^^^ b) % 2 ^ n = a % 2 ^ n ^^^ b % 2 ^ n := by
  apply Nat.eq_of_testBit_eq
  intro i
  simp only [Nat.testBit_mod_two_pow, Nat.testBit_xor]
  cases h : decide (i < n) <;> simp

theorem or_eq_xor_of_and_eq_zero {a b : Nat} (h : a &&& b = 0) :
    a ||| b = a ^^^ b := by
  apply Nat.eq_of_testBit_eq
  intro i
  have hi := congrArg (Nat.testBit · i) h
  simp only [Nat.testBit_and, Nat.zero_testBit] at hi
  simp only [Nat.testBit_or, Nat.testBit_xor]
  cases ha : a.testBit i <;> cases hb : b.testBit i <;> simp_all

theorem xor_mix (p q r t : Nat) :
    (p ^^^ r) ^^^ (q ^^^ t) = (p ^^^ q) ^^^ (r ^^^ t) := by
  apply Nat.eq_of_testBit_eq
  intro i
  simp only [Nat.testBit_xor]
  cases p.testBit i <;> cases q.testBit i <;> cases r.testBit i <;>
    cases t.testBit i <;> rfl

/-- The two operands OR-ed together inside `revStep` occupy disjoint bit
positions whenever the mask is disjoint from its own shift. -/
theorem revStep_disjoint {m s : Nat} (hm : m &&& (m <<< s) = 0) (c : Nat) :
    ((c >>> s) &&& m) &&& wrap64 ((c &&& m) <<< s) = 0 := by
  apply Nat.eq_of_testBit_eq
  intro i
  have hi := congrArg (Nat.testBit · i) hm
  simp only [Nat.testBit_and, Nat.testBit_shiftLeft, Nat.zero_testBit] at hi
  simp only [wrap64, Nat.testBit_and, Nat.testBit_mod_two_pow,
    Nat.testBit_shiftLeft, Nat.testBit_shiftRight, Nat.zero_testBit]
  cases h1 : Nat.testBit m i <;> cases h2 : decide (i ≥ s) <;>
    cases h3 : Nat.testBit m (i - s) <;> simp_all

/-- Each cascade stage distributes over XOR. -/
theorem revStep_xor {m s : Nat} (hm : m &&& (m <<< s) = 0) (a b : Nat) :
    revStep m s (a ^^^ b) = revStep m s a ^^^ revStep m s b := by
  unfold revStep
  rw [or_eq_xor_of_and_eq_zero (revStep_disjoint hm _),
      or_eq_xor_of_and_eq_zero (revStep_disjoint hm _),
      or_eq_xor_of_and_eq_zero (revStep_disjoint hm _)]
  unfold wrap64
  rw [xor_shiftRight, Nat.and_xor_distrib_right, Nat.and_xor_distrib_right,
      xor_shiftLeft, xor_mod_two_pow]
  exact xor_mix _ _ _ _

theorem mdisj2 : (0x3333333333333333 : Nat) &&& (0x3333333333333333 <<< 2) = 0 := by decide

theorem mdisj4 : (0x0F0F0F0F0F0F0F0F : Nat) &&& (0x0F0F0F0F0F0F0F0F <<< 4) = 0 := by decide

theorem mdisj8 : (0x00FF00FF00FF00FF : Nat) &&& (0x00FF00FF00FF00FF <<< 8) = 0 := by decide

theorem mdisj16 : (0x0000FFFF0000FFFF : Nat) &&& (0x0000FFFF0000FFFF <<< 16) = 0 := by decide

theorem mdisj32 : (0x00000000FFFFFFFF : Nat) &&& (0x00000000FFFFFFFF <<< 32) = 0 := by decide

/-- The full cascade distributes over XOR. -/
theorem rev64_xor (a b : Nat) : rev64 (a ^^^ b) = rev64 a ^^^ rev64 b := by
  unfold rev64
  rw [revStep_xor mdisj2, revStep_xor mdisj4, revStep_xor mdisj8,
      revStep_xor mdisj16, revStep_xor mdisj32]

theorem revStep_lt {m : Nat} (hmlt : m < 2 ^ 64) (s c : Nat) :
    revStep m s c < 2 ^ 64 := by
  unfold revStep
  apply Nat.or_lt_two_pow
  · exact Nat.lt_of_le_of_lt Nat.and_le_right hmlt
  · exact Nat.mod_lt _ (by norm_num)

/-- The cascade never leaves the 64-bit range. -/
theorem rev64_lt (c : Nat) : rev64 c < 2 ^ 64 := revStep_lt (by decide) _ _

/-- Transfer principle: two XOR-linear maps that agree on the `n` basis
bits agree on every value below `2^n`. -/
theorem linear_eq_of_basis {f g : Nat → Nat}
    (hf : ∀ a b, f (a ^^^ b) = f a ^^^ f b)
    (hg : ∀ a b, g (a ^^^ b) = g a ^^^ g b)
    {n : Nat} (hbasis : ∀ i, i < n → f (2 ^ i) = g (2 ^ i)) :
    ∀ x, x < 2 ^ n → f x = g x := by
  have hf0 : f 0 = 0 := by
    have h := hf 0 0
    simp only [Nat.zero_xor, Nat.xor_self] at h
    exact h
  have hg0 : g 0 = 0 := by
    have h := hg 0 0
    simp only [Nat.zero_xor, Nat.xor_self] at h
    exact h
  intro x
  induction x using Nat.strong_induction_on with
  | _ x ih =>
    intro hx
    by_cases hx0 : x = 0
    · rw [hx0, hf0, hg0]
    · have h2 : 2 ^ x.log2 ≤ x := Nat.log2_self_le hx0
      have h3 : x < 2 ^ (x.log2 + 1) := Nat.lt_log2_self
      have hin : x.log2 < n := (Nat.log2_lt hx0).mpr hx
      have hylt : x ^^^ 2 ^ x.log2 < 2 ^ x.log2 := by
        apply Nat.lt_pow_two_of_testBit
        intro j hj
        rcases Nat.eq_or_lt_of_le hj with hj' | hjgt
        · have hxbit : x.testBit x.log2 = true := by
            have hdiv : x / 2 ^ x.log2 = 1 := by
              apply Nat.div_eq_of_lt_le <;> omega
            simp [Nat.testBit_to_div_mod, hdiv]
          rw [← hj']
          simp [Nat.testBit_xor, hxbit, Nat.testBit_two_pow]
        · have hb1 : x.testBit j = false :=
            Nat.testBit_lt_two_pow
              (lt_of_lt_of_le h3 (Nat.pow_le_pow_right (by norm_num) hjgt))
          have hb2 : (2 ^ x.log2).testBit j = false :=
            Nat.testBit_two_pow_of_ne (Nat.ne_of_lt hjgt)
          simp [Nat.testBit_xor, hb1, hb2]
      have hyx : x ^^^ 2 ^ x.log2 < x := lt_of_lt_of_le hylt h2
      have hyn : x ^^^ 2 ^ x.log2 < 2 ^ n :=
        lt_of_lt_of_le hylt
          (Nat.pow_le_pow_right (by norm_num) (Nat.le_of_lt hin))
      have hrec := ih _ hyx hyn
      have hxeq : x = (x ^^^ 2 ^ x.log2) ^^^ 2 ^ x.log2 :=
        (Nat.xor_cancel_right _ _).symm
      rw [hxeq, hf, hg, hrec, hbasis _ hin]

/-- The Go mask expression `(1 << (k*2)) - 1` evaluates, with its wrapping
semantics, to `2^(2k) - 1` for every `k ≤ 32`. -/
theorem goMask_eq {k : Nat} (hk : k ≤ 32) :
    goSub1 (goShl 1 (k <<< 1)) = 2 ^ (2 * k) - 1 := by
  interval_cases k <;> decide

theorem allones_shiftRight {k : Nat} (hk1 : 1 ≤ k) (hk2 : k ≤ 32) :
    (2 ^ 64 - 1) >>> ((32 - k) <<< 1) = 2 ^ (2 * k) - 1 := by
  interval_cases k <;> decide

theorem rev64_allones : rev64 (2 ^ 64 - 1) = 2 ^ 64 - 1 := by decide

/-- The cascade sends the low all-ones mask of width `2k` to the high
all-ones mask of width `2k`. -/
theorem rev64_mask {k : Nat} (hk1 : 1 ≤ k) (hk2 : k ≤ 32) :
    rev64 (2 ^ (2 * k) - 1) = (2 ^ (2 * k) - 1) <<< ((32 - k) <<< 1) := by
  interval_cases k <;> decide

theorem shiftLeft_shiftRight (x d : Nat) : x <<< d >>> d = x := by
  rw [Nat.shiftLeft_eq, Nat.shiftRight_eq_div_pow,
      Nat.mul_div_cancel _ (Nat.pos_pow_of_pos d (by norm_num))]

/-! ### C1: the MaxCode table -/

/-- C1: the claim fails — and the failure is a bug in the code, whose own
comment (`(1<<(i*2)) - 1`) and whose `ErrCodeOverflow` documentation
(`bigger than 4^k`) state the intent.  `init` computes
`(1 << uint(1<<i)) - 1 = 2^(2^i) - 1` instead of `2^(2i) - 1`, so
`MaxCode[3] = 255` rather than `63`, and `Decode(64, 3)` succeeds
(returning the garbage decode `"AAA"`) even though `64 > 2^6 - 1`, instead
of failing with `CodeOverflow`. -/
theorem c1_maxCode_table_bug :
    MaxCode 3 = 255 ∧ MaxCode 3 ≠ 2 ^ (2 * 3) - 1 ∧
    2 ^ (2 * 3) - 1 < 64 ∧ Decode 64 3 = .ok [65, 65, 65] :=
  ⟨by decide, by decide, by decide, rfl⟩

/-! ### C5: the worked example -/

/-- C5 counterexample: the claim (and spec) state
`Reverse(27, 4) == 0b11011000` (216), but the cascade reverses the order
of 2-bit groups, so `Reverse(27, 4)` — the code of `"TGCA"`, the reversal
of `"ACGT"` — is `0b11100100 = 228`, not `216` (which would be the
full bit-mirror of `0b00011011`). -/
theorem c5_reverse_literal_counterexample :
    Reverse 27 4 = .ok 228 ∧ (228 : Nat) ≠ 0b11011000 :=
  ⟨rfl, by decide⟩

/-- C5 amended: `Encode("ACGT") = 0b00011011 = 27` with no error,
`Decode(27,4) = "ACGT"`, `Complement(27,4) = 0b11100100 = 228`, and
`Reverse(27,4) = 0b11100100 = 228` (the code of `"TGCA"`). -/
theorem c5_worked_example :
    Encode [65, 67, 71, 84] = (27, none) ∧
    Decode 27 4 = .ok [65, 67, 71, 84] ∧
    Complement 27 4 = .ok 228 ∧
    Reverse 27 4 = .ok 228 :=
  ⟨by decide, rfl, rfl, rfl⟩

/-! ### Encoding lemmas -/

theorem encStep_le (acc b : Nat) : acc ≤ encStep acc b := by
  unfold encStep
  omega

theorem foldl_encStep_le (l : List Nat) : ∀ acc, acc ≤ l.foldl encStep acc := by
  induction l with
  | nil => intro acc; exact Nat.le_refl _
  | cons b r ih =>
      intro acc
      exact Nat.le_trans (encStep_le acc b) (ih (encStep acc b))

set_option maxRecDepth 4000 in
theorem base2bit_le (b : Nat) : base2bit b ≤ 4 := by
  unfold base2bit
  rw [List.getD_eq_getElem?_getD]
  cases h : base2bitTable[b]? with
  | none => simp
  | some x =>
      simp only [Option.getD_some]
      exact (by decide : ∀ x ∈ base2bitTable, x ≤ 4) x (List.getElem?_mem h)

/-- A byte with a mapping has a 2-bit value. -/
theorem base2bit_lt_of_ne {b : Nat} (h : base2bit b ≠ 4) : base2bit b < 4 :=
  Nat.lt_of_le_of_ne (base2bit_le b) h

/-- The error component of the encode loop is `none` exactly when every
byte has a mapping. -/
theorem encodeLoop_none_iff (l : List Nat) :
    ∀ acc, (encodeLoop l acc).2 = none ↔ ∀ b ∈ l, base2bit b ≠ 4 := by
  induction l with
  | nil => intro acc; simp [encodeLoop]
  | cons b r ih =>
      intro acc
      by_cases hv : base2bit b = 4
      · simp [encodeLoop, hv]
      · simp [encodeLoop, hv, ih]

/-- On mapped input whose packed value fits in 64 bits, the encode loop
computes the `encStep` fold with no error. -/
theorem encodeLoop_ok (l : List Nat) :
    ∀ acc, (∀ b ∈ l, base2bit b ≠ 4) → l.foldl encStep acc < 2 ^ 64 →
      encodeLoop l acc = (l.foldl encStep acc, none) := by
  induction l with
  | nil => intro acc _ _; rfl
  | cons b r ih =>
      intro acc hval hbound
      have hv4 : base2bit b ≠ 4 := hval b (List.mem_cons_self b r)
      have hvlt : base2bit b < 4 := base2bit_lt_of_ne hv4
      have hstep_le : encStep acc b ≤ (b :: r).foldl encStep acc :=
        foldl_encStep_le r (encStep acc b)
      have hacc4 : 4 * acc + base2bit b < 2 ^ 64 := by
        have := Nat.lt_of_le_of_lt hstep_le hbound
        unfold encStep at this
        omega
      have hw : wrap64 (acc <<< 2) = 4 * acc := by
        unfold wrap64
        rw [Nat.shiftLeft_eq]
        have hlt : acc * 2 ^ 2 < 2 ^ 64 := by omega
        rw [Nat.mod_eq_of_lt hlt]
        omega
      have hor : 4 * acc ||| base2bit b = 4 * acc + base2bit b := by
        have h4 : base2bit b < 2 ^ 2 := hvlt
        have := (Nat.mul_add_lt_is_or h4 acc).symm
        norm_num at this ⊢
        omega
      show (if base2bit b = 4 then (wrap64 (acc <<< 2), some Err.IllegalBase)
            else encodeLoop r (wrap64 (acc <<< 2) ||| base2bit b)) = _
      rw [if_neg hv4, hw, hor]
      exact ih (encStep acc b) (fun x hx => hval x (List.mem_cons_of_mem _ hx))
        hbound

/-- Bound on the packed value: `k` mapped bytes contribute fewer than
`4^k` counts. -/
theorem foldl_encStep_lt (l : List Nat) :
    ∀ acc, (∀ b ∈ l, base2bit b ≠ 4) →
      l.foldl encStep acc < 4 ^ l.length * (acc + 1) := by
  induction l with
  | nil =>
      intro acc _
      simp
  | cons b r ih =>
      intro acc hval
      have hvlt : base2bit b < 4 :=
        base2bit_lt_of_ne (hval b (List.mem_cons_self b r))
      have h1 := ih (encStep acc b) (fun x hx => hval x (List.mem_cons_of_mem _ hx))
      have h2 : encStep acc b + 1 ≤ 4 * (acc + 1) := by
        unfold encStep
        omega
      calc (b :: r).foldl encStep acc
          = r.foldl encStep (encStep acc b) := rfl
        _ < 4 ^ r.length * (encStep acc b + 1) := h1
        _ ≤ 4 ^ r.length * (4 * (acc + 1)) :=
            Nat.mul_le_mul_left _ h2
        _ = 4 ^ (b :: r).length * (acc + 1) := by
            simp [List.length_cons, Nat.pow_succ]
            ring

theorem codeOf_lt (l : List Nat) (hval : ∀ b ∈ l, base2bit b ≠ 4) :
    codeOf l < 4 ^ l.length := by
  have := foldl_encStep_lt l 0 hval
  simpa [codeOf] using this

/-- `Encode` on fully mapped input of length 1..32 returns the packed fold
with no error. -/
theorem encode_ok (s : List Nat) (hval : ∀ b ∈ s, base2bit b ≠ 4)
    (h1 : 1 ≤ s.length) (h32 : s.length ≤ 32) :
    Encode s = (codeOf s, none) := by
  unfold Encode
  rw [if_neg (by omega)]
  have hb : s.foldl encStep 0 < 2 ^ 64 := by
    have h := foldl_encStep_lt s 0 hval
    have h2 : (4 : Nat) ^ s.length ≤ 4 ^ 32 :=
      Nat.pow_le_pow_right (by norm_num) h32
    have h3 : (4 : Nat) ^ 32 = 2 ^ 64 := by norm_num
    omega
  exact encodeLoop_ok s 0 hval hb

/-! ### Decoding lemmas -/

theorem bit2base_base2bit {b : Nat}
    (h : b = 65 ∨ b = 67 ∨ b = 71 ∨ b = 84) : bit2base (base2bit b) = b := by
  rcases h with rfl | rfl | rfl | rfl <;> rfl

theorem base2bit_acgt_ne {b : Nat}
    (h : b = 65 ∨ b = 67 ∨ b = 71 ∨ b = 84) : base2bit b ≠ 4 := by
  rcases h with rfl | rfl | rfl | rfl <;> decide

/-- Decoding inverts the packing fold on A/C/G/T input. -/
theorem mustDecode_codeOf : ∀ s : List Nat,
    (∀ b ∈ s, b = 65 ∨ b = 67 ∨ b = 71 ∨ b = 84) →
    MustDecode (codeOf s) s.length = s := by
  intro s
  induction s using List.reverseRecOn with
  | nil => intro _; rfl
  | append_singleton s b ih =>
      intro hval
      have hb := hval b (by simp)
      have hvalid : ∀ x ∈ s, x = 65 ∨ x = 67 ∨ x = 71 ∨ x = 84 :=
        fun x hx => hval x (by simp [hx])
      have hvlt : base2bit b < 4 := by
        rcases hb with rfl | rfl | rfl | rfl <;> decide
      have hc : codeOf (s ++ [b]) = 4 * codeOf s + base2bit b := by
        unfold codeOf
        rw [List.foldl_append]
        rfl
      have hlen : (s ++ [b]).length = s.length + 1 := by simp
      rw [hc, hlen]
      simp only [MustDecode]
      have hshift : (4 * codeOf s + base2bit b) >>> 2 = codeOf s := by
        rw [Nat.shiftRight_eq_div_pow]
        have h4 : (2 : Nat) ^ 2 = 4 := by norm_num
        rw [h4, Nat.mul_add_div (by norm_num)]
        have h0 : base2bit b / 4 = 0 := Nat.div_eq_of_lt hvlt
        omega
      have hand : (4 * codeOf s + base2bit b) &&& 3 = base2bit b := by
        have h3 : (3 : Nat) = 2 ^ 2 - 1 := by norm_num
        rw [h3, Nat.and_pow_two_sub_one_eq_mod]
        have h4 : (2 : Nat) ^ 2 = 4 := by norm_num
        rw [h4, Nat.mul_add_mod]
        exact Nat.mod_eq_of_lt hvlt
      rw [hshift, hand, ih hvalid, bit2base_base2bit hb]

/-- The buggy table still dominates the true per-`k` maximum, so the
decode-time bound check never spuriously fires on valid codes. -/
theorem maxCode_ge {k : Nat} (h1 : 1 ≤ k) (h2 : k ≤ 32) :
    4 ^ k - 1 ≤ MaxCode k := by
  interval_cases k <;> decide

/-! ### C2: encode/decode round-trip -/

/-- C2: for every sequence over `{A,C,G,T}` of length 1..32, `Encode`
succeeds (with the packed fold as value) and `Decode` at the same length
returns exactly the original bytes. -/
theorem c2_encode_decode_roundtrip (s : List Nat)
    (hs : ∀ b ∈ s, b = 65 ∨ b = 67 ∨ b = 71 ∨ b = 84)
    (h1 : 1 ≤ s.length) (h32 : s.length ≤ 32) :
    Encode s = (codeOf s, none) ∧ Decode (Encode s).1 s.length = .ok s := by
  have hval : ∀ b ∈ s, base2bit b ≠ 4 := fun b hb => base2bit_acgt_ne (hs b hb)
  have he := encode_ok s hval h1 h32
  refine ⟨he, ?_⟩
  rw [he]
  show Decode (codeOf s) s.length = .ok s
  unfold Decode
  rw [if_neg (by omega)]
  have hlt : codeOf s < 4 ^ s.length := codeOf_lt s hval
  have hge : 4 ^ s.length - 1 ≤ MaxCode s.length := maxCode_ge h1 h32
  have h4pos : 1 ≤ 4 ^ s.length := Nat.one_le_pow _ _ (by norm_num)
  rw [if_neg (by omega)]
  rw [mustDecode_codeOf s hs]

/-- C2 witness at `s = "ACGT"`. -/
theorem c2_witness :
    Encode [65, 67, 71, 84] = (codeOf [65, 67, 71, 84], none) ∧
    Decode (Encode [65, 67, 71, 84]).1 [65, 67, 71, 84].length =
      .ok [65, 67, 71, 84] :=
  c2_encode_decode_roundtrip [65, 67, 71, 84] (by decide) (by decide) (by decide)

/-! ### C8: the error contract of Encode -/

/-- The encode loop reports no error kind other than `IllegalBase`. -/
theorem encodeLoop_err (l : List Nat) :
    ∀ acc, (encodeLoop l acc).2 = none ∨
      (encodeLoop l acc).2 = some Err.IllegalBase := by
  induction l with
  | nil => intro acc; left; rfl
  | cons b r ih =>
      intro acc
      by_cases hv : base2bit b = 4
      · right; simp [encodeLoop, hv]
      · simpa [encodeLoop, hv] using ih _

/-- C8: `Encode` fails with the length-overflow kind (`ErrKOverflow`)
exactly on empty or longer-than-32 input; in range, it fails with
`ErrIllegalBase` exactly when some byte has no table entry, and otherwise
succeeds with the packed value, degenerate bytes resolving to the 2-bit
value of the first base of their ambiguity set
(M,V,H,R,D,W,N → A; S,B,Y → C; K → G). -/
theorem c8_encode_error_contract (kmer : List Nat) :
    ((kmer.length = 0 ∨ 32 < kmer.length) →
      Encode kmer = (0, some Err.KOverflow)) ∧
    (1 ≤ kmer.length → kmer.length ≤ 32 →
      (((Encode kmer).2 = none) ↔ ∀ b ∈ kmer, base2bit b ≠ 4)) ∧
    (1 ≤ kmer.length → kmer.length ≤ 32 →
      (∃ b ∈ kmer, base2bit b = 4) →
      (Encode kmer).2 = some Err.IllegalBase) ∧
    (1 ≤ kmer.length → kmer.length ≤ 32 →
      (∀ b ∈ kmer, base2bit b ≠ 4) →
      Encode kmer = (codeOf kmer, none)) ∧
    (base2bit 77 = base2bit 65 ∧ base2bit 86 = base2bit 65 ∧
     base2bit 72 = base2bit 65 ∧ base2bit 82 = base2bit 65 ∧
     base2bit 68 = base2bit 65 ∧ base2bit 87 = base2bit 65 ∧
     base2bit 78 = base2bit 65 ∧ base2bit 83 = base2bit 67 ∧
     base2bit 66 = base2bit 67 ∧ base2bit 89 = base2bit 67 ∧
     base2bit 75 = base2bit 71) := by
  refine ⟨?_, ?_, ?_, ?_, ?_⟩
  · intro h
    unfold Encode
    rw [if_pos h]
  · intro h1 h32
    unfold Encode
    rw [if_neg (by omega)]
    exact encodeLoop_none_iff kmer 0
  · intro h1 h32 hbad
    have hiff : ((Encode kmer).2 = none) ↔ ∀ b ∈ kmer, base2bit b ≠ 4 := by
      unfold Encode
      rw [if_neg (by omega)]
      exact encodeLoop_none_iff kmer 0
    have hne : (Encode kmer).2 ≠ none := by
      intro hnone
      obtain ⟨b, hb, hb4⟩ := hbad
      exact (hiff.mp hnone) b hb hb4
    have herr : (Encode kmer).2 = none ∨ (Encode kmer).2 = some Err.IllegalBase := by
      unfold Encode
      rw [if_neg (by omega)]
      exact encodeLoop_err kmer 0
    tauto
  · intro h1 h32 hval
    exact encode_ok kmer hval h1 h32
  · exact ⟨rfl, rfl, rfl, rfl, rfl, rfl, rfl, rfl, rfl, rfl, rfl⟩

/-- C8 witness: an unmapped byte (`'E' = 69`) next to a degenerate one, an
all-degenerate one-byte success, and both length failures. -/
theorem c8_witness :
    (Encode [65, 69]).2 = some Err.IllegalBase ∧
    Encode [77] = (codeOf [77], none) ∧
    Encode [] = (0, some Err.KOverflow) ∧
    Encode [65, 65, 65, 65, 65, 65, 65, 65, 65, 65, 65, 65, 65, 65, 65, 65,
            65, 65, 65, 65, 65, 65, 65, 65, 65, 65, 65, 65, 65, 65, 65, 65,
            65] = (0, some Err.KOverflow) := by
  refine ⟨?_, ?_, ?_, ?_⟩
  · exact (c8_encode_error_contract [65, 69]).2.2.1 (by decide) (by decide)
      ⟨69, by decide, by decide⟩
  · exact (c8_encode_error_contract [77]).2.2.2.1 (by decide) (by decide)
      (by decide)
  · exact (c8_encode_error_contract []).1 (by decide)
  · exact (c8_encode_error_contract _).1 (by norm_num)

/-! ### C10: trusting encoders on an illegal edge byte -/

/-- C10: when the new edge byte has no 2-bit mapping, the trusting
incremental encoders report `ErrIllegalBase` and return the previous
window's code unchanged — `MustEncodeFromFormerKmer` yields `leftCode` and
`MustEncodeFromLatterKmer` yields `rightCode`, not zero and not a shifted
value. -/
theorem c10_must_encoders_keep_code_on_illegal
    (kmer other : List Nat) (code : Nat) (hne : kmer ≠ []) :
    (base2bit (kmer.getLastD 0) = 4 →
      MustEncodeFromFormerKmer kmer other code = (code, some Err.IllegalBase)) ∧
    (base2bit (kmer.headD 0) = 4 →
      MustEncodeFromLatterKmer kmer other code = (code, some Err.IllegalBase)) := by
  refine ⟨fun h => ?_, fun h => ?_⟩
  · simp only [List.getLastD_eq_getLast?] at h
    simp [MustEncodeFromFormerKmer, List.getLastD_eq_getLast?, h]
  · simp only [List.headD_eq_head?] at h
    simp [MustEncodeFromLatterKmer, List.headD_eq_head?, h]

/-- C10 witness at `kmer = "E"`, previous code 7. -/
theorem c10_witness :
    MustEncodeFromFormerKmer [69] [65] 7 = (7, some Err.IllegalBase) ∧
    MustEncodeFromLatterKmer [69] [65] 7 = (7, some Err.IllegalBase) := by
  have h := c10_must_encoders_keep_code_on_illegal [69] [65] 7 (by decide)
  exact ⟨h.1 (by decide), h.2 (by decide)⟩

/-! ### C4: incremental re-encoding equals direct encoding -/

theorem foldl_encStep_shift (t : List Nat) :
    ∀ a, t.foldl encStep a = 4 ^ t.length * a + t.foldl encStep 0 := by
  induction t with
  | nil => intro a; simp
  | cons b r ih =>
      intro a
      show r.foldl encStep (encStep a b) =
        4 ^ (b :: r).length * a + r.foldl encStep (encStep 0 b)
      rw [ih (encStep a b), ih (encStep 0 b)]
      simp only [encStep, List.length_cons, Nat.pow_succ]
      ring

theorem codeOf_cons (x : Nat) (t : List Nat) :
    codeOf (x :: t) = 4 ^ t.length * base2bit x + codeOf t := by
  show t.foldl encStep (encStep 0 x) = _
  rw [foldl_encStep_shift t (encStep 0 x)]
  simp only [encStep, codeOf]
  ring

theorem codeOf_append_singleton (t : List Nat) (y : Nat) :
    codeOf (t ++ [y]) = 4 * codeOf t + base2bit y := by
  unfold codeOf
  rw [List.foldl_append]
  rfl

/-- The forward-slide trusting encoder turns the code of `x :: t` into the
code of `t ++ [y]`, exactly as direct encoding would. -/
theorem mustEncodeFromFormer_spec (t : List Nat) (x y : Nat)
    (hty : ∀ b ∈ t, base2bit b ≠ 4) (hy : base2bit y ≠ 4)
    (hlen : t.length ≤ 31) :
    MustEncodeFromFormerKmer (t ++ [y]) (x :: t) (codeOf (x :: t)) =
      (codeOf (t ++ [y]), none) := by
  unfold MustEncodeFromFormerKmer
  rw [List.getLastD_concat]
  rw [if_neg hy]
  have hlen2 : (t ++ [y]).length - 1 = t.length := by simp
  rw [hlen2, goMask_eq (by omega : t.length ≤ 32)]
  have hlt : codeOf t < 4 ^ t.length := codeOf_lt t hty
  have hmask : codeOf (x :: t) &&& (2 ^ (2 * t.length) - 1) = codeOf t := by
    rw [Nat.and_pow_two_sub_one_eq_mod, codeOf_cons]
    have hp : (2 : Nat) ^ (2 * t.length) = 4 ^ t.length := by
      rw [Nat.pow_mul]
    rw [hp, Nat.mul_add_mod]
    exact Nat.mod_eq_of_lt hlt
  rw [hmask]
  have hw : wrap64 (codeOf t <<< 2) = 4 * codeOf t := by
    unfold wrap64
    rw [Nat.shiftLeft_eq]
    have hmul : codeOf t * 2 ^ 2 = 4 * codeOf t := by ring
    rw [hmul]
    apply Nat.mod_eq_of_lt
    have h2 : (4 : Nat) ^ t.length ≤ 4 ^ 31 :=
      Nat.pow_le_pow_right (by norm_num) hlen
    have h3 : (4 : Nat) ^ 31 * 4 = 2 ^ 64 := by norm_num
    omega
  rw [hw]
  have hor : 4 * codeOf t ||| base2bit y = 4 * codeOf t + base2bit y := by
    have h4 : base2bit y < 2 ^ 2 := base2bit_lt_of_ne hy
    have := (Nat.mul_add_lt_is_or h4 (codeOf t)).symm
    norm_num at this ⊢
    omega
  rw [hor, codeOf_append_singleton]

/-- The checked forward-slide encoder accepts genuinely consecutive
windows and computes the same value. -/
theorem encodeFromFormer_spec (t : List Nat) (x y : Nat)
    (hty : ∀ b ∈ t, base2bit b ≠ 4) (hy : base2bit y ≠ 4)
    (hlen : t.length ≤ 31) :
    EncodeFromFormerKmer (t ++ [y]) (x :: t) (codeOf (x :: t)) =
      (codeOf (t ++ [y]), none) := by
  unfold EncodeFromFormerKmer
  rw [if_neg (by simp)]
  rw [if_neg (by simp)]
  have htake : (t ++ [y]).take ((t ++ [y]).length - 1) = t := by
    rw [show (t ++ [y]).length - 1 = t.length by simp]
    exact List.take_left' rfl
  rw [if_neg (by simp [htake])]
  exact mustEncodeFromFormer_spec t x y hty hy hlen

/-- C4: sliding a k-window one base to the right, the trusting and checked
incremental re-encoders both turn the directly encoded code of the window
at `i` into exactly the directly encoded code of the window at `i+1`. -/
theorem c4_incremental_matches_direct (seq : List Nat) (k i : Nat)
    (hk1 : 1 ≤ k) (hk2 : k ≤ 32)
    (hval : ∀ b ∈ seq, base2bit b ≠ 4)
    (hwin : i + k < seq.length) :
    Encode ((seq.drop i).take k) = (codeOf ((seq.drop i).take k), none) ∧
    Encode ((seq.drop (i + 1)).take k) =
      (codeOf ((seq.drop (i + 1)).take k), none) ∧
    MustEncodeFromFormerKmer ((seq.drop (i + 1)).take k)
      ((seq.drop i).take k) (codeOf ((seq.drop i).take k)) =
      (codeOf ((seq.drop (i + 1)).take k), none) ∧
    EncodeFromFormerKmer ((seq.drop (i + 1)).take k)
      ((seq.drop i).take k) (codeOf ((seq.drop i).take k)) =
      (codeOf ((seq.drop (i + 1)).take k), none) := by
  have hi : i < seq.length := by omega
  have hdlen : (seq.drop (i + 1)).length = seq.length - (i + 1) := by simp
  have hkle : k ≤ (seq.drop (i + 1)).length := by omega
  have hwin0 : seq.drop i = seq[i] :: seq.drop (i + 1) :=
    List.drop_eq_getElem_cons hi
  have hk1' : k - 1 + 1 = k := by omega
  have hyidx : k - 1 < (seq.drop (i + 1)).length := by omega
  have hw1 : (seq.drop i).take k =
      seq[i] :: (seq.drop (i + 1)).take (k - 1) := by
    rw [hwin0, ← hk1']
    rfl
  have hw2 : (seq.drop (i + 1)).take k =
      (seq.drop (i + 1)).take (k - 1) ++ [(seq.drop (i + 1))[k - 1]] := by
    conv_lhs => rw [← hk1']
    rw [List.take_succ, List.getElem?_eq_getElem hyidx]
    rfl
  have hvt : ∀ b ∈ (seq.drop (i + 1)).take (k - 1), base2bit b ≠ 4 :=
    fun b hb => hval b (List.mem_of_mem_drop (List.mem_of_mem_take hb))
  have hvy : base2bit (seq.drop (i + 1))[k - 1] ≠ 4 :=
    hval _ (List.mem_of_mem_drop (List.getElem_mem hyidx))
  have htlen : ((seq.drop (i + 1)).take (k - 1)).length = k - 1 := by
    simp only [List.length_take]
    omega
  have hw1val : ∀ b ∈ (seq.drop i).take k, base2bit b ≠ 4 :=
    fun b hb => hval b (List.mem_of_mem_drop (List.mem_of_mem_take hb))
  have hw2val : ∀ b ∈ (seq.drop (i + 1)).take k, base2bit b ≠ 4 :=
    fun b hb => hval b (List.mem_of_mem_drop (List.mem_of_mem_take hb))
  have hw1len : ((seq.drop i).take k).length = k := by
    simp only [List.length_take, List.length_drop]
    omega
  have hw2len : ((seq.drop (i + 1)).take k).length = k := by
    simp only [List.length_take]
    omega
  refine ⟨?_, ?_, ?_, ?_⟩
  · exact encode_ok _ hw1val (by omega) (by omega)
  · exact encode_ok _ hw2val (by omega) (by omega)
  · rw [hw1, hw2]
    exact mustEncodeFromFormer_spec _ _ _ hvt hvy (by omega)
  · rw [hw1, hw2]
    exact encodeFromFormer_spec _ _ _ hvt hvy (by omega)

/-- C4 witness: `seq = "ACGTA"`, `k = 4`, windows at 0 and 1. -/
theorem c4_witness :
    Encode [65, 67, 71, 84] = (codeOf [65, 67, 71, 84], none) ∧
    Encode [67, 71, 84, 65] = (codeOf [67, 71, 84, 65], none) ∧
    MustEncodeFromFormerKmer [67, 71, 84, 65] [65, 67, 71, 84]
      (codeOf [65, 67, 71, 84]) = (codeOf [67, 71, 84, 65], none) ∧
    EncodeFromFormerKmer [67, 71, 84, 65] [65, 67, 71, 84]
      (codeOf [65, 67, 71, 84]) = (codeOf [67, 71, 84, 65], none) :=
  c4_incremental_matches_direct [65, 67, 71, 84, 65] 4 0 (by decide)
    (by decide) (by decide) (by decide)

/-! ### C3: the fused reverse-complement -/

/-- Normal form of the fused pass: complement-then-cascade-then-shift is
shift-of-cascade XOR the low `2k`-bit mask. -/
theorem mustRevComp_eq {k : Nat} (hk1 : 1 ≤ k) (hk2 : k ≤ 32) (c : Nat) :
    MustRevComp c k =
      (rev64 c >>> ((32 - k) <<< 1)) ^^^ (2 ^ (2 * k) - 1) := by
  unfold MustRevComp
  rw [rev64_xor, rev64_allones, xor_shiftRight, allones_shiftRight hk1 hk2]

/-- `Reverse` after `Complement` reaches the same normal form. -/
theorem mustReverse_mustComplement_eq {k : Nat} (hk1 : 1 ≤ k) (hk2 : k ≤ 32)
    (c : Nat) :
    MustReverse (MustComplement c k) k =
      (rev64 c >>> ((32 - k) <<< 1)) ^^^ (2 ^ (2 * k) - 1) := by
  unfold MustReverse MustComplement
  rw [goMask_eq hk2, rev64_xor, rev64_mask hk1 hk2, xor_shiftRight,
      shiftLeft_shiftRight]

/-- `Complement` after `Reverse` likewise. -/
theorem mustComplement_mustReverse_eq {k : Nat} (hk2 : k ≤ 32) (c : Nat) :
    MustComplement (MustReverse c k) k =
      (rev64 c >>> ((32 - k) <<< 1)) ^^^ (2 ^ (2 * k) - 1) := by
  unfold MustComplement MustReverse
  rw [goMask_eq hk2]

/-- C3: for valid `k` and in-range codes, the fused single-pass `RevComp`
agrees with both compositions `Reverse ∘ Complement` and
`Complement ∘ Reverse` (the identities hold for every 64-bit code; the
range hypothesis is the claim's). -/
theorem c3_revcomp_fusion (c k : Nat) (hk1 : 1 ≤ k) (hk2 : k ≤ 32)
    (hc : c < 2 ^ (2 * k)) :
    RevComp c k = (Complement c k).bind (fun x => Reverse x k) ∧
    RevComp c k = (Reverse c k).bind (fun x => Complement x k) := by
  have hne : ¬(k = 0 ∨ 32 < k) := by omega
  constructor
  · simp only [RevComp, Complement, Reverse, if_neg hne, Except.bind]
    rw [mustRevComp_eq hk1 hk2, mustReverse_mustComplement_eq hk1 hk2]
  · simp only [RevComp, Complement, Reverse, if_neg hne, Except.bind]
    rw [mustRevComp_eq hk1 hk2, mustComplement_mustReverse_eq hk2]

/-- C3 witness at `c = 27` (`"ACGT"`), `k = 4`. -/
theorem c3_witness :
    RevComp 27 4 = (Complement 27 4).bind (fun x => Reverse x 4) ∧
    RevComp 27 4 = (Reverse 27 4).bind (fun x => Complement x 4) :=
  c3_revcomp_fusion 27 4 (by decide) (by decide) (by decide)

/-! ### C6: canonical form -/

/-- Cascade-shift applied twice is the identity on codes of width `2k`
(by XOR-linearity it suffices to check the basis bits, which is a finite
computation). -/
theorem rev64_shift_involution {k : Nat} (hk1 : 1 ≤ k) (hk2 : k ≤ 32) :
    ∀ c, c < 2 ^ (2 * k) →
      rev64 (rev64 c >>> ((32 - k) <<< 1)) >>> ((32 - k) <<< 1) = c := by
  have hdec : ∀ k' < 33, ∀ i < 64, 1 ≤ k' → i < 2 * k' →
      rev64 (rev64 (2 ^ i) >>> ((32 - k') <<< 1)) >>> ((32 - k') <<< 1) =
        2 ^ i := by decide
  intro c hc
  have h := linear_eq_of_basis
    (f := fun x => rev64 (rev64 x >>> ((32 - k) <<< 1)) >>> ((32 - k) <<< 1))
    (g := id)
    (fun a b => by
      simp only []
      rw [rev64_xor, xor_shiftRight, rev64_xor, xor_shiftRight])
    (fun a b => rfl)
    (n := 2 * k)
    (fun i hi => hdec k (by omega) i (by omega) hk1 hi)
    c hc
  simpa using h

/-- The fused reverse-complement is an involution on in-range codes. -/
theorem mustRevComp_involution {k : Nat} (hk1 : 1 ≤ k) (hk2 : k ≤ 32)
    (c : Nat) (hc : c < 2 ^ (2 * k)) :
    MustRevComp (MustRevComp c k) k = c := by
  rw [mustRevComp_eq hk1 hk2, mustRevComp_eq hk1 hk2, rev64_xor,
      xor_shiftRight, rev64_mask hk1 hk2, shiftLeft_shiftRight,
      Nat.xor_cancel_right]
  exact rev64_shift_involution hk1 hk2 c hc

/-- C6: `Canonical` is idempotent and never exceeds its input. -/
theorem c6_canonical_idempotent_le (c k : Nat) (hk1 : 1 ≤ k) (hk2 : k ≤ 32)
    (hc : c < 2 ^ (2 * k)) :
    ∃ y, Canonical c k = .ok y ∧ Canonical y k = .ok y ∧ y ≤ c := by
  have hne : ¬(k = 0 ∨ 32 < k) := by omega
  have hinv := mustRevComp_involution hk1 hk2 c hc
  refine ⟨MustCanonical c k, by simp [Canonical, hne], ?_, ?_⟩
  · simp only [Canonical, if_neg hne, Except.ok.injEq]
    show MustCanonical (MustCanonical c k) k = MustCanonical c k
    by_cases h : MustRevComp c k < c
    · have h1 : MustCanonical c k = MustRevComp c k := by
        simp [MustCanonical, h]
      rw [h1]
      simp [MustCanonical, hinv]
      omega
    · have h1 : MustCanonical c k = c := by
        simp [MustCanonical, h]
      rw [h1]
      simp [MustCanonical, h]
  · show MustCanonical c k ≤ c
    by_cases h : MustRevComp c k < c
    · simp [MustCanonical, h]
      omega
    · simp [MustCanonical, h]

/-- C6 witness at `c = 27`, `k = 4`. -/
theorem c6_witness :
    ∃ y, Canonical 27 4 = .ok y ∧ Canonical y 4 = .ok y ∧ y ≤ 27 :=
  c6_canonical_idempotent_le 27 4 (by decide) (by decide) (by decide)

/-! ### C9: every operation preserves the width invariant -/

theorem shiftRight_lt_pow {x p s : Nat} (h : x < 2 ^ p) (hs : s ≤ p) :
    x >>> s < 2 ^ (p - s) := by
  rw [Nat.shiftRight_eq_div_pow]
  apply Nat.div_lt_of_lt_mul
  rw [← Nat.pow_add, show s + (p - s) = p by omega]
  exact h

/-- C9: on an in-range code with valid `k`, every code-producing operation
returns a value with all bits above position `2k - 1` zero: the four
transforms stay below `2^(2k)`, the trusting incremental re-encoders stay
below `2^(2k)` on success, prefixes of length `n` stay below `2^(2n)` and
suffixes from position `i` stay below `2^(2(k-i))`. -/
theorem c9_representation_invariant (c k : Nat) (hk1 : 1 ≤ k) (hk2 : k ≤ 32)
    (hc : c < 2 ^ (2 * k)) :
    (Reverse c k = .ok (MustReverse c k) ∧ MustReverse c k < 2 ^ (2 * k)) ∧
    (Complement c k = .ok (MustComplement c k) ∧
      MustComplement c k < 2 ^ (2 * k)) ∧
    (RevComp c k = .ok (MustRevComp c k) ∧ MustRevComp c k < 2 ^ (2 * k)) ∧
    (Canonical c k = .ok (MustCanonical c k) ∧
      MustCanonical c k < 2 ^ (2 * k)) ∧
    (∀ kmer other code, kmer.length = k →
      (MustEncodeFromFormerKmer kmer other code).2 = none →
      (MustEncodeFromFormerKmer kmer other code).1 < 2 ^ (2 * k)) ∧
    (∀ kmer other code, kmer.length = k → code < 2 ^ (2 * k) →
      (MustEncodeFromLatterKmer kmer other code).2 = none →
      (MustEncodeFromLatterKmer kmer other code).1 < 2 ^ (2 * k)) ∧
    (∀ n, 1 ≤ n → n ≤ k →
      Prefix c k n = .ok (MustPrefix c k n) ∧
      MustPrefix c k n < 2 ^ (2 * n)) ∧
    (∀ i, i < k →
      Suffix c k i = .ok (MustSuffix c k i) ∧
      MustSuffix c k i < 2 ^ (2 * (k - i))) := by
  have hne : ¬(k = 0 ∨ 32 < k) := by omega
  have hrev : MustReverse c k < 2 ^ (2 * k) := by
    unfold MustReverse
    rw [shiftLeft_one_eq]
    have h := shiftRight_lt_pow (rev64_lt c) (s := 2 * (32 - k)) (by omega)
    have he : 64 - 2 * (32 - k) = 2 * k := by omega
    rw [he] at h
    exact h
  have hrc : MustRevComp c k < 2 ^ (2 * k) := by
    unfold MustRevComp
    rw [shiftLeft_one_eq]
    have h := shiftRight_lt_pow (rev64_lt (c ^^^ (2 ^ 64 - 1)))
      (s := 2 * (32 - k)) (by omega)
    have he : 64 - 2 * (32 - k) = 2 * k := by omega
    rw [he] at h
    exact h
  refine ⟨⟨?_, hrev⟩, ⟨?_, ?_⟩, ⟨?_, hrc⟩, ⟨?_, ?_⟩, ?_, ?_, ?_, ?_⟩
  · unfold Reverse
    rw [if_neg hne]
  · unfold Complement
    rw [if_neg hne]
  · unfold MustComplement
    rw [goMask_eq hk2]
    exact Nat.xor_lt_two_pow hc
      (Nat.sub_lt (Nat.pos_pow_of_pos _ (by norm_num)) (by norm_num))
  · unfold RevComp
    rw [if_neg hne]
  · unfold Canonical
    rw [if_neg hne]
  · have hcan : MustCanonical c k =
        if MustRevComp c k < c then MustRevComp c k else c := rfl
    rw [hcan]
    split
    · exact hrc
    · exact hc
  · intro kmer other code hlen h2
    by_cases hv : base2bit (kmer.getLastD 0) = 4
    · rw [List.getLastD_eq_getLast?] at hv
      simp [MustEncodeFromFormerKmer, List.getLastD_eq_getLast?, hv] at h2
    · rw [List.getLastD_eq_getLast?] at hv
      have hval : (MustEncodeFromFormerKmer kmer other code).1 =
          wrap64 ((code &&&
            goSub1 (goShl 1 ((kmer.length - 1) <<< 1))) <<< 2) |||
            base2bit (kmer.getLastD 0) := by
        simp [MustEncodeFromFormerKmer, List.getLastD_eq_getLast?, hv]
      rw [hval, hlen, goMask_eq (show k - 1 ≤ 32 by omega)]
      apply Nat.or_lt_two_pow
      · have hx : code &&& (2 ^ (2 * (k - 1)) - 1) < 2 ^ (2 * (k - 1)) := by
          rw [Nat.and_pow_two_sub_one_eq_mod]
          exact Nat.mod_lt _ (Nat.pos_pow_of_pos _ (by norm_num))
        have hsh := Nat.shiftLeft_lt (m := 2) hx
        have he : 2 * (k - 1) + 2 = 2 * k := by omega
        calc wrap64 ((code &&& (2 ^ (2 * (k - 1)) - 1)) <<< 2)
            ≤ (code &&& (2 ^ (2 * (k - 1)) - 1)) <<< 2 := Nat.mod_le _ _
          _ < 2 ^ (2 * k) := by rw [← he]; exact hsh
      · have hvlt : base2bit (kmer.getLastD 0) < 4 := by
          rw [List.getLastD_eq_getLast?]
          exact base2bit_lt_of_ne hv
        have h4 : (4 : Nat) ≤ 2 ^ (2 * k) := by
          calc (4 : Nat) = 2 ^ 2 := by norm_num
            _ ≤ 2 ^ (2 * k) := Nat.pow_le_pow_right (by norm_num) (by omega)
        omega
  · intro kmer other code hlen hcode h2
    by_cases hv : base2bit (kmer.headD 0) = 4
    · rw [List.headD_eq_head?] at hv
      simp [MustEncodeFromLatterKmer, List.headD_eq_head?, hv] at h2
    · rw [List.headD_eq_head?] at hv
      have hval : (MustEncodeFromLatterKmer kmer other code).1 =
          goShl (base2bit (kmer.headD 0)) ((kmer.length - 1) <<< 1) |||
            code >>> 2 := by
        simp [MustEncodeFromLatterKmer, List.headD_eq_head?, hv]
      rw [hval, hlen]
      apply Nat.or_lt_two_pow
      · unfold goShl
        rw [shiftLeft_one_eq]
        rw [if_pos (by omega : 2 * (k - 1) < 64)]
        have hvlt : base2bit (kmer.headD 0) < 2 ^ 2 := by
          rw [List.headD_eq_head?]
          exact base2bit_lt_of_ne hv
        have hsh := Nat.shiftLeft_lt (m := 2 * (k - 1)) hvlt
        have he : 2 + 2 * (k - 1) = 2 * k := by omega
        calc wrap64 (base2bit (kmer.headD 0) <<< (2 * (k - 1)))
            ≤ base2bit (kmer.headD 0) <<< (2 * (k - 1)) := Nat.mod_le _ _
          _ < 2 ^ (2 * k) := by rw [← he]; exact hsh
      · calc code >>> 2 ≤ code := by
              rw [Nat.shiftRight_eq_div_pow]
              exact Nat.div_le_self _ _
          _ < 2 ^ (2 * k) := hcode
  · intro n hn1 hn2
    constructor
    · unfold Prefix
      rw [if_neg (by omega)]
    · unfold MustPrefix
      rw [shiftLeft_one_eq]
      have h := shiftRight_lt_pow hc (s := 2 * (k - n)) (by omega)
      have he : 2 * k - 2 * (k - n) = 2 * n := by omega
      rw [he] at h
      exact h
  · intro i hi
    constructor
    · unfold Suffix
      rw [if_neg (by omega)]
    · unfold MustSuffix
      rw [goMask_eq (by omega : k - i ≤ 32), Nat.and_pow_two_sub_one_eq_mod]
      exact Nat.mod_lt _ (Nat.pos_pow_of_pos _ (by norm_num))

/-- C9 witness at `c = 27`, `k = 4`, with prefix length 2 and suffix
position 1. -/
theorem c9_witness :
    MustReverse 27 4 < 2 ^ (2 * 4) ∧
    MustPrefix 27 4 2 < 2 ^ (2 * 2) ∧
    MustSuffix 27 4 1 < 2 ^ (2 * (4 - 1)) := by
  have h := c9_representation_invariant 27 4 (by decide) (by decide) (by decide)
  exact ⟨h.1.2, (h.2.2.2.2.2.2.1 2 (by decide) (by decide)).2,
    (h.2.2.2.2.2.2.2 1 (by decide)).2⟩

/-! ### C7: longest common prefix -/

theorem mustDecode_length : ∀ (k code : Nat), (MustDecode code k).length = k := by
  intro k
  induction k with
  | zero => intro code; rfl
  | succ k' ih => intro code; simp [MustDecode, ih]

/-- The `j`-th decoded byte is the base of the `j`-th 2-bit group from the
top. -/
theorem mustDecode_getD : ∀ (k code j : Nat), j < k →
    (MustDecode code k).getD j 0 =
      bit2base ((code >>> (2 * (k - 1 - j))) &&& 3) := by
  intro k
  induction k with
  | zero => intro code j hj; omega
  | succ k' ih =>
      intro code j hj
      simp only [MustDecode]
      rw [List.getD_eq_getElem?_getD]
      by_cases hjk : j < k'
      · rw [List.getElem?_append_left (by rw [mustDecode_length]; exact hjk),
            ← List.getD_eq_getElem?_getD, ih (code >>> 2) j hjk,
            ← Nat.shiftRight_add]
        have he : 2 + 2 * (k' - 1 - j) = 2 * (k' + 1 - 1 - j) := by omega
        rw [he]
      · have hj' : j = k' := by omega
        subst hj'
        rw [List.getElem?_append_right
              (le_of_eq (mustDecode_length j (code >>> 2)))]
        rw [mustDecode_length]
        have h0 : 2 * (j + 1 - 1 - j) = 0 := by omega
        rw [h0, Nat.sub_self, Nat.shiftRight_zero]
        simp

theorem cpl_nil_right : ∀ l : List Nat, commonPrefixLen l [] = 0 := by
  intro l
  cases l <;> rfl

theorem cpl_comm : ∀ l1 l2 : List Nat,
    commonPrefixLen l1 l2 = commonPrefixLen l2 l1 := by
  intro l1
  induction l1 with
  | nil => intro l2; cases l2 <;> rfl
  | cons a as ih =>
      intro l2
      cases l2 with
      | nil => rfl
      | cons b bs =>
          simp only [commonPrefixLen]
          by_cases hab : a = b
          · subst hab
            simp [ih bs]
          · rw [if_neg hab, if_neg (fun h => hab h.symm)]

theorem cpl_self : ∀ l : List Nat, commonPrefixLen l l = l.length := by
  intro l
  induction l with
  | nil => rfl
  | cons a as ih => simp [commonPrefixLen, ih]

/-- `commonPrefixLen` only inspects the first `|l2|` entries of its first
argument. -/
theorem cpl_congr_left : ∀ (l2 l1 l1' : List Nat),
    l2.length ≤ l1.length → l2.length ≤ l1'.length →
    (∀ j, j < l2.length → l1.getD j 0 = l1'.getD j 0) →
    commonPrefixLen l1 l2 = commonPrefixLen l1' l2 := by
  intro l2
  induction l2 with
  | nil => intro l1 l1' _ _ _; rw [cpl_nil_right, cpl_nil_right]
  | cons b bs ih =>
      intro l1 l1' h1 h1' hpre
      cases l1 with
      | nil => simp at h1
      | cons a as =>
          cases l1' with
          | nil => simp at h1'
          | cons a' as' =>
              have ha : a = a' := by simpa using hpre 0 (by simp)
              subst ha
              simp only [commonPrefixLen]
              by_cases hab : a = b
              · rw [if_pos hab, if_pos hab,
                    ih as as' (by simpa using h1) (by simpa using h1')
                      (fun j hj => by simpa using hpre (j + 1) (by simpa using hj))]
              · rw [if_neg hab, if_neg hab]

/-- Pinpointing `commonPrefixLen`: it equals `p` when the first `p`
entries agree and either list ends at `p` or the entries at `p` differ. -/
theorem cpl_spec : ∀ (p : Nat) (l1 l2 : List Nat),
    p ≤ l1.length → p ≤ l2.length →
    (∀ j, j < p → l1.getD j 0 = l2.getD j 0) →
    (p = l1.length ∨ p = l2.length ∨ l1.getD p 0 ≠ l2.getD p 0) →
    commonPrefixLen l1 l2 = p := by
  intro p
  induction p with
  | zero =>
      intro l1 l2 h1 h2 hpre hend
      cases l1 with
      | nil => cases l2 <;> rfl
      | cons a as =>
          cases l2 with
          | nil => rfl
          | cons b bs =>
              rcases hend with h | h | h
              · simp at h
              · simp at h
              · simp only [commonPrefixLen]
                rw [if_neg (by simpa using h)]
  | succ p' ih =>
      intro l1 l2 h1 h2 hpre hend
      cases l1 with
      | nil => simp at h1
      | cons a as =>
          cases l2 with
          | nil => simp at h2
          | cons b bs =>
              have hab : a = b := by simpa using hpre 0 (by omega)
              simp only [commonPrefixLen, if_pos hab]
              congr 1
              apply ih as bs (by simpa using h1) (by simpa using h2)
                (fun j hj => by simpa using hpre (j + 1) (by omega))
              rcases hend with h | h | h
              · left; simpa using h
              · right; left; simpa using h
              · right; right; simpa using h

/-- The aligned core of `LongestPrefix`: for equal-width in-range codes,
counting leading zero 2-bit groups of the XOR measures the common decoded
prefix. -/
theorem lcp_aligned (m a b : Nat) (hm1 : 1 ≤ m) (hm2 : m ≤ 32)
    (ha : a < 2 ^ (2 * m)) (hb : b < 2 ^ (2 * m)) :
    (leadingZeros64 (a ^^^ b) >>> 1) - (32 - m) =
      commonPrefixLen (MustDecode a m) (MustDecode b m) := by
  by_cases hab : a = b
  · subst hab
    rw [Nat.xor_self]
    have hr : commonPrefixLen (MustDecode a m) (MustDecode a m) = m := by
      rw [cpl_self, mustDecode_length]
    rw [hr]
    show (((64 : Nat) - len64 0) >>> 1) - (32 - m) = m
    norm_num [len64]
    omega
  · have hx0 : a ^^^ b ≠ 0 := Nat.xor_ne_zero.mpr hab
    have hxlt : a ^^^ b < 2 ^ (2 * m) := Nat.xor_lt_two_pow ha hb
    have hL2m : (a ^^^ b).log2 < 2 * m := (Nat.log2_lt hx0).mpr hxlt
    have hLle : 2 ^ (a ^^^ b).log2 ≤ a ^^^ b := Nat.log2_self_le hx0
    have hLlt : a ^^^ b < 2 ^ ((a ^^^ b).log2 + 1) := Nat.lt_log2_self
    have hq : 2 * ((a ^^^ b).log2 / 2) + (a ^^^ b).log2 % 2 = (a ^^^ b).log2 :=
      Nat.div_add_mod _ 2
    have hr2 : (a ^^^ b).log2 % 2 < 2 := Nat.mod_lt _ (by norm_num)
    have hqm : (a ^^^ b).log2 / 2 < m := by omega
    have hlen : len64 (a ^^^ b) = (a ^^^ b).log2 + 1 := by
      unfold len64
      rw [if_neg hx0]
    have hlhs : (leadingZeros64 (a ^^^ b) >>> 1) - (32 - m) =
        m - 1 - (a ^^^ b).log2 / 2 := by
      unfold leadingZeros64
      rw [hlen, Nat.shiftRight_eq_div_pow, Nat.pow_one]
      have h63 : 64 - ((a ^^^ b).log2 + 1) = 63 - (a ^^^ b).log2 := by omega
      rw [h63]
      have hsplit : 63 - (a ^^^ b).log2 =
          2 * (31 - (a ^^^ b).log2 / 2) + (1 - (a ^^^ b).log2 % 2) := by
        omega
      rw [hsplit, Nat.mul_add_div (by norm_num)]
      have h12 : (1 - (a ^^^ b).log2 % 2) / 2 = 0 :=
        Nat.div_eq_of_lt (by omega)
      omega
    rw [hlhs]
    apply Eq.symm
    apply cpl_spec
    · rw [mustDecode_length]; omega
    · rw [mustDecode_length]; omega
    · intro j hj
      rw [mustDecode_getD m a j (by omega), mustDecode_getD m b j (by omega)]
      have he : (a ^^^ b).log2 + 1 ≤ 2 * (m - 1 - j) := by omega
      have hxz : (a ^^^ b) >>> (2 * (m - 1 - j)) = 0 := by
        rw [Nat.shiftRight_eq_div_pow]
        apply Nat.div_eq_of_lt
        calc a ^^^ b < 2 ^ ((a ^^^ b).log2 + 1) := hLlt
          _ ≤ 2 ^ (2 * (m - 1 - j)) := Nat.pow_le_pow_right (by norm_num) he
      have hs : a >>> (2 * (m - 1 - j)) = b >>> (2 * (m - 1 - j)) := by
        apply Nat.xor_eq_zero.mp
        rw [← xor_shiftRight]
        exact hxz
      rw [hs]
    · right; right
      rw [mustDecode_getD m a (m - 1 - (a ^^^ b).log2 / 2) (by omega),
          mustDecode_getD m b (m - 1 - (a ^^^ b).log2 / 2) (by omega)]
      have hidx : m - 1 - (m - 1 - (a ^^^ b).log2 / 2) = (a ^^^ b).log2 / 2 := by
        omega
      rw [hidx]
      have hch : (a >>> (2 * ((a ^^^ b).log2 / 2))) &&& 3 ≠
          (b >>> (2 * ((a ^^^ b).log2 / 2))) &&& 3 := by
        intro heq
        have hxq : ((a ^^^ b) >>> (2 * ((a ^^^ b).log2 / 2))) &&& 3 = 0 := by
          calc ((a ^^^ b) >>> (2 * ((a ^^^ b).log2 / 2))) &&& 3
              = ((a >>> (2 * ((a ^^^ b).log2 / 2))) ^^^
                 (b >>> (2 * ((a ^^^ b).log2 / 2)))) &&& 3 := by
                rw [xor_shiftRight]
            _ = ((a >>> (2 * ((a ^^^ b).log2 / 2))) &&& 3) ^^^
                ((b >>> (2 * ((a ^^^ b).log2 / 2))) &&& 3) :=
                Nat.and_xor_distrib_right
            _ = 0 := by rw [heq, Nat.xor_self]
        have h1 : 1 ≤ (a ^^^ b) >>> (2 * ((a ^^^ b).log2 / 2)) := by
          rw [Nat.shiftRight_eq_div_pow]
          rw [Nat.le_div_iff_mul_le (Nat.pos_pow_of_pos _ (by norm_num))]
          rw [Nat.one_mul]
          exact le_trans (Nat.pow_le_pow_right (by norm_num) (by omega)) hLle
        have h4 : (a ^^^ b) >>> (2 * ((a ^^^ b).log2 / 2)) < 4 := by
          rw [Nat.shiftRight_eq_div_pow]
          apply Nat.div_lt_of_lt_mul
          calc a ^^^ b < 2 ^ ((a ^^^ b).log2 + 1) := hLlt
            _ ≤ 2 ^ (2 * ((a ^^^ b).log2 / 2) + 2) :=
                Nat.pow_le_pow_right (by norm_num) (by omega)
            _ = 2 ^ (2 * ((a ^^^ b).log2 / 2)) * 4 := by
                rw [Nat.pow_add]
        have hmod : ((a ^^^ b) >>> (2 * ((a ^^^ b).log2 / 2))) &&& 3 =
            (a ^^^ b) >>> (2 * ((a ^^^ b).log2 / 2)) := by
          rw [show (3 : Nat) = 2 ^ 2 - 1 by norm_num,
              Nat.and_pow_two_sub_one_eq_mod]
          exact Nat.mod_eq_of_lt (by omega)
        omega
      have hinj : ∀ u < 4, ∀ v < 4, u ≠ v → bit2base u ≠ bit2base v := by
        decide
      exact hinj _ (Nat.lt_succ_of_le Nat.and_le_right) _
        (Nat.lt_succ_of_le Nat.and_le_right) hch

/-- C7: for valid lengths and in-range codes, `LongestPrefix` returns the
length of the longest common byte-prefix of the two decoded sequences. -/
theorem c7_longest_common_prefix (c1 c2 k1 k2 : Nat)
    (h11 : 1 ≤ k1) (h12 : k1 ≤ 32) (h21 : 1 ≤ k2) (h22 : k2 ≤ 32)
    (hc1 : c1 < 2 ^ (2 * k1)) (hc2 : c2 < 2 ^ (2 * k2)) :
    LongestPrefix c1 c2 k1 k2 =
      .ok (commonPrefixLen (MustDecode c1 k1) (MustDecode c2 k2)) := by
  have hne : ¬(k1 = 0 ∨ 32 < k1 ∨ k2 = 0 ∨ 32 < k2) := by omega
  unfold LongestPrefix
  rw [if_neg hne]
  congr 1
  unfold MustLongestPrefix
  by_cases hk : k2 ≤ k1
  · rw [if_pos hk, shiftLeft_one_eq]
    have ha : c1 >>> (2 * (k1 - k2)) < 2 ^ (2 * k2) := by
      have h := shiftRight_lt_pow hc1 (s := 2 * (k1 - k2)) (by omega)
      have he : 2 * k1 - 2 * (k1 - k2) = 2 * k2 := by omega
      rwa [he] at h
    rw [lcp_aligned k2 _ c2 h21 h22 ha hc2]
    apply cpl_congr_left
    · rw [mustDecode_length, mustDecode_length]
    · rw [mustDecode_length, mustDecode_length]; omega
    · intro j hj
      rw [mustDecode_length] at hj
      rw [mustDecode_getD k2 _ j hj, mustDecode_getD k1 c1 j (by omega),
          ← Nat.shiftRight_add]
      congr 3
      omega
  · push_neg at hk
    rw [if_neg (by omega), shiftLeft_one_eq]
    have hb : c2 >>> (2 * (k2 - k1)) < 2 ^ (2 * k1) := by
      have h := shiftRight_lt_pow hc2 (s := 2 * (k2 - k1)) (by omega)
      have he : 2 * k2 - 2 * (k2 - k1) = 2 * k1 := by omega
      rwa [he] at h
    rw [lcp_aligned k1 c1 _ h11 h12 hc1 hb]
    rw [cpl_comm (MustDecode c1 k1) (MustDecode _ k1),
        cpl_comm (MustDecode c1 k1) (MustDecode c2 k2)]
    apply cpl_congr_left
    · rw [mustDecode_length, mustDecode_length]
    · rw [mustDecode_length, mustDecode_length]; omega
    · intro j hj
      rw [mustDecode_length] at hj
      rw [mustDecode_getD k1 _ j hj, mustDecode_getD k2 c2 j (by omega),
          ← Nat.shiftRight_add]
      congr 3
      omega

/-- C7 witness: the codes of `"ACTGCA"` (484, k=6) and `"ACTGC"` (121,
k=5) share a 5-byte prefix. -/
theorem c7_witness : LongestPrefix 484 121 6 5 = .ok 5 := by
  have h := c7_longest_common_prefix 484 121 6 5 (by decide) (by decide)
    (by decide) (by decide) (by decide) (by decide)
  rw [h]
  rfl

end Kmers
